import Mathlib

/-!
Verification of the habit-tracker backend's streak engine and habit
aggregation (`src/services/habitService.js`).

Calendar dates are modelled as integers counting days (the JS code holds
`YYYY-MM-DD` strings, parsed to UTC-midnight `Date` values; comparing those
by `getTime`, adding a day with `setDate(getDate()+1)` and subtracting days
correspond exactly to integer arithmetic on day numbers).  Millisecond
timestamps are integers; `new Date(ts).toISOString().split('T')[0]` is floor
division by the number of milliseconds per day.
-/

namespace HabitTracker

/-- Milliseconds per day. -/
def msPerDay : Int := 86400000

/-- `new Date(ts).toISOString().split('T')[0]`: the UTC calendar date of a
millisecond timestamp. -/
def dateOnly (ts : Int) : Int := Int.fdiv ts msPerDay

/-- `dates.sort((a, b) => new Date(b) - new Date(a))`: sort descending
(habitService.js line 294). -/
def sortDesc (dates : List Int) : List Int :=
  List.insertionSort (fun a b => a ≥ b) dates

/-- `completions.map(c => new Date(c.completion_date)).sort((a, b) => a - b)`:
sort ascending (habitService.js line 314). -/
def sortAsc (dates : List Int) : List Int :=
  List.insertionSort (fun a b => a ≤ b) dates

/-- The `for (const dateStr of sortedDates)` loop of habitService.js lines
300-310: walk the (descending-sorted) list, counting elements that match
`checkDate`, `checkDate` moving back one day per match; `break` on the first
mismatch. -/
def matchRun : List Int → Int → Nat
  | [], _ => 0
  | d :: rest, check =>
    if d = check then matchRun rest (check - 1) + 1 else 0

/-- The current-streak computation of habitService.js lines 283-311: zero
when the list is empty or neither today nor yesterday appears; otherwise
a backward walk from the anchor over the descending-sorted date list. -/
def currentStreakCalc (dates : List Int) (today : Int) : Nat :=
  if today ∈ sortDesc dates ∨ (today - 1) ∈ sortDesc dates then
    matchRun (sortDesc dates) (if today ∈ sortDesc dates then today else today - 1)
  else 0

/-- The `for (let i = 0; i < allDates.length; i++)` loop of habitService.js
lines 316-331, started after the `i = 0` iteration: `prev` is the previous
date, `temp` the running run length, `longest` the maximum so far; a gap of
exactly one day extends the run, anything else folds `temp` into `longest`
and restarts at 1. -/
def longestLoop : List Int → Int → Nat → Nat → Nat
  | [], _, temp, longest => max longest temp
  | d :: rest, prev, temp, longest =>
    if d - prev = 1 then longestLoop rest d (temp + 1) longest
    else longestLoop rest d 1 (max longest temp)

/-- The scan over an already-sorted list: zero for an empty history (the
whole streak block is guarded by `completions.length > 0`), otherwise the
`i = 0` iteration sets `tempStreak = 1` and the loop handles the rest. -/
def longestScan : List Int → Nat
  | [] => 0
  | d :: rest => longestLoop rest d 1 0

/-- The longest-streak computation of habitService.js lines 313-332: scan
the ascending-sorted dates. -/
def longestStreakCalc (dates : List Int) : Nat :=
  longestScan (sortAsc dates)

/-- The pure streak pair `{current_streak, longest_streak}` computed by
`updateHabitStreaks` from the completed-date list and the reference today. -/
def computeStreaks (dates : List Int) (today : Int) : Nat × Nat :=
  (currentStreakCalc dates today, longestStreakCalc dates)

/-- A row of `habit_completions` as the streak/aggregation code reads it:
`completion_date` and the `completed` flag. -/
structure CompletionRecord where
  completion_date : Int
  completed : Bool
deriving Repr, DecidableEq

/-- The per-habit state the service reads and writes: the habit's completion
rows and its two persisted streak caches. -/
structure HabitState where
  completions : List CompletionRecord
  current_streak : Nat
  longest_streak : Nat
deriving Repr, DecidableEq

/-- The dates the streak query returns: rows with `completed = true`
(`.eq('completed', true)` in habitService.js lines 272-277). -/
def completedDates (recs : List CompletionRecord) : List Int :=
  (recs.filter (fun r => r.completed)).map (fun r => r.completion_date)

/-- `updateHabitStreaks` (habitService.js lines 270-349): recompute both
streak values from the full completed history and persist them; the
completion rows themselves are untouched. -/
def updateHabitStreaks (st : HabitState) (today : Int) : HabitState :=
  { st with
    current_streak := currentStreakCalc (completedDates st.completions) today
    longest_streak := longestStreakCalc (completedDates st.completions) }

/-- The upsert inside `toggleHabitCompletion` (habitService.js lines 220-259):
if a row for the date exists, overwrite its `completed` flag, otherwise
insert a new row. -/
def upsertCompletion (recs : List CompletionRecord) (d : Int) (c : Bool) :
    List CompletionRecord :=
  if recs.any (fun r => r.completion_date = d) then
    recs.map (fun r =>
      if r.completion_date = d then { r with completed := c } else r)
  else
    recs ++ [{ completion_date := d, completed := c }]

/-- `toggleHabitCompletion` (habitService.js lines 216-265): truncate the
incoming timestamp to a calendar date, upsert the row for that date, then
synchronously recompute the streaks via `updateHabitStreaks`. -/
def toggleHabitCompletion (st : HabitState) (ts : Int) (c : Bool)
    (today : Int) : HabitState :=
  updateHabitStreaks
    { st with completions := upsertCompletion st.completions (dateOnly ts) c }
    today

/-! ## Sorting is a function of the underlying set -/

theorem sortDesc_eq_of_perm {l1 l2 : List Int} (h : l1.Perm l2) :
    sortDesc l1 = sortDesc l2 :=
  List.eq_of_perm_of_sorted
    ((List.perm_insertionSort _ l1).trans (h.trans (List.perm_insertionSort _ l2).symm))
    (List.sorted_insertionSort _ l1) (List.sorted_insertionSort _ l2)

theorem sortAsc_eq_of_perm {l1 l2 : List Int} (h : l1.Perm l2) :
    sortAsc l1 = sortAsc l2 :=
  List.eq_of_perm_of_sorted
    ((List.perm_insertionSort _ l1).trans (h.trans (List.perm_insertionSort _ l2).symm))
    (List.sorted_insertionSort _ l1) (List.sorted_insertionSort _ l2)

theorem mem_sortDesc {l : List Int} {x : Int} : x ∈ sortDesc l ↔ x ∈ l :=
  (List.perm_insertionSort _ l).mem_iff

theorem mem_sortAsc {l : List Int} {x : Int} : x ∈ sortAsc l ↔ x ∈ l :=
  (List.perm_insertionSort _ l).mem_iff

/-- C3: after every completed call of `toggleHabitCompletion`, the habit's
persisted `current_streak` and `longest_streak` equal the deterministic
streak functions applied to the habit's complete set of completion records
with `completed = true`: the toggle synchronously triggers a full recompute
from the entire history. -/
theorem C3_toggle_recomputes (st : HabitState) (ts : Int) (c : Bool) (today : Int) :
    ((toggleHabitCompletion st ts c today).current_streak,
      (toggleHabitCompletion st ts c today).longest_streak)
      = computeStreaks
          (completedDates (toggleHabitCompletion st ts c today).completions) today := rfl

/-- C5: grace day — for every reference day `t`, the streak computation on
the singleton history `{t-1}` with today `t` yields current 1 and longest 1. -/
theorem C5_grace_day (t : Int) : computeStreaks [t - 1] t = (1, 1) := by
  have h1 : ¬ (t = t - 1) := by omega
  simp [computeStreaks, currentStreakCalc, longestStreakCalc, longestScan, sortDesc, sortAsc,
        List.insertionSort, List.orderedInsert, matchRun, longestLoop, h1]

/-- C4: the streak computation is a pure function of the set of completed
dates — permuting the input sequence leaves both results unchanged. -/
theorem C4_order_independence (l1 l2 : List Int) (today : Int) (h : l1.Perm l2) :
    computeStreaks l1 today = computeStreaks l2 today := by
  unfold computeStreaks currentStreakCalc longestStreakCalc
  rw [sortDesc_eq_of_perm h, sortAsc_eq_of_perm h]

/-- Witness for C4 at the concrete pair `[0, 1]`, `[1, 0]`. -/
theorem C4_order_independence_witness :
    computeStreaks [0, 1] 1 = computeStreaks [1, 0] 1 :=
  C4_order_independence [0, 1] [1, 0] 1 (by decide)

/-! ## The backward walk of the current-streak loop -/

/-- Every day the walk counted is in the list: if the walk from `c` matched
`k` elements, then `c, c-1, ..., c-(k-1)` all occur. -/
theorem matchRun_mem : ∀ (l : List Int) (c : Int) (i : Nat),
    i < matchRun l c → c - i ∈ l := by
  intro l
  induction l with
  | nil => intro c i h; simp [matchRun] at h
  | cons d rest ih =>
    intro c i h
    by_cases hd : d = c
    · rw [matchRun, if_pos hd] at h
      cases i with
      | zero => simp [hd]
      | succ j =>
        have hj : j < matchRun rest (c - 1) := by omega
        have hmem := ih (c - 1) j hj
        have harith : c - ((j : Nat) + 1 : Nat) = c - 1 - (j : Nat) := by push_cast; ring
        rw [harith]
        exact List.mem_cons_of_mem _ hmem
    · rw [matchRun, if_neg hd] at h
      omega

/-- On a strictly descending list whose elements are all at most `c`, the
walk counts exactly the maximal consecutive run downward from `c`: every day
in `(c - k, c]` is present and the day `c - k` just below it is not. -/
theorem matchRun_exact : ∀ (l : List Int) (c : Int),
    l.Pairwise (fun a b => a > b) → (∀ x ∈ l, x ≤ c) →
    (∀ d : Int, c - (matchRun l c : Int) < d → d ≤ c → d ∈ l) ∧
      (c - (matchRun l c : Int)) ∉ l := by
  intro l
  induction l with
  | nil =>
    intro c _ _
    refine ⟨fun d h1 h2 => ?_, by simp⟩
    simp [matchRun] at h1
    omega
  | cons d0 rest ih =>
    intro c hpw hle
    have hrest_pw : rest.Pairwise (fun a b => a > b) := hpw.of_cons
    have hhead : ∀ x ∈ rest, d0 > x := fun x hx => List.rel_of_pairwise_cons hpw hx
    by_cases hd : d0 = c
    · subst hd
      rw [matchRun, if_pos rfl]
      have hle' : ∀ x ∈ rest, x ≤ d0 - 1 := fun x hx => by
        have := hhead x hx; omega
      obtain ⟨h1, h2⟩ := ih (d0 - 1) hrest_pw hle'
      constructor
      · intro d hd1 hd2
        rcases eq_or_lt_of_le hd2 with rfl | hlt
        · exact List.mem_cons_self _ _
        · refine List.mem_cons_of_mem _ (h1 d ?_ (by omega))
          push_cast at hd1 ⊢
          omega
      · intro hmem
        rcases List.mem_cons.mp hmem with heq | hmem'
        · push_cast at heq; omega
        · apply h2
          have harith : d0 - ((matchRun rest (d0 - 1) : Int) + 1)
              = d0 - 1 - (matchRun rest (d0 - 1) : Int) := by ring
          have hcast : ((matchRun rest (d0 - 1) + 1 : Nat) : Int)
              = (matchRun rest (d0 - 1) : Int) + 1 := by push_cast; ring
          rw [hcast, harith] at hmem'
          exact hmem'
    · rw [matchRun, if_neg hd]
      have hd0le : d0 ≤ c := hle d0 (List.mem_cons_self _ _)
      constructor
      · intro d h1 h2
        push_cast at h1
        omega
      · intro hmem
        rcases List.mem_cons.mp hmem with heq | hmem'
        · push_cast at heq; omega
        · have := hhead _ hmem'
          push_cast at this
          omega

/-- A descending sort of a duplicate-free list is strictly descending. -/
theorem sortDesc_pairwise_gt {l : List Int} (h : l.Nodup) :
    (sortDesc l).Pairwise (fun a b => a > b) := by
  have hs : (sortDesc l).Pairwise (fun a b => a ≥ b) := List.sorted_insertionSort _ l
  have hn : (sortDesc l).Nodup := ((List.perm_insertionSort _ l).nodup_iff).mpr h
  exact (hs.and hn).imp fun hab => lt_of_le_of_ne hab.1 (Ne.symm hab.2)

/-- The head of the descending sort bounds every element. -/
theorem sortDesc_head_bound {l : List Int} {h : Int} {tl : List Int}
    (he : sortDesc l = h :: tl) : ∀ x ∈ l, x ≤ h := by
  intro x hx
  have hx' : x ∈ sortDesc l := mem_sortDesc.mpr hx
  rw [he] at hx'
  have hs : (sortDesc l).Pairwise (fun a b => a ≥ b) := List.sorted_insertionSort _ l
  rw [he] at hs
  rcases List.mem_cons.mp hx' with rfl | hx''
  · exact le_refl x
  · exact List.rel_of_pairwise_cons hs hx''

/-- C1 (amended): for a duplicate-free completed-date list `S` and reference
day `t`, if neither `t` nor `t-1` is in `S` the current streak is 0; with
anchor `a` (`t` if present, else `t-1`), if `S` holds any date after the
anchor the loop breaks at once and returns 0; otherwise the current streak
is the largest `k ≥ 1` with `a, a-1, ..., a-(k-1)` all in `S` — every day in
`(a - k, a]` is present and `a - k` is not. -/
theorem C1_current_streak (S : List Int) (t : Int) (hnd : S.Nodup) (a : Int)
    (ha : a = if t ∈ S then t else t - 1) :
    (t ∉ S → (t - 1) ∉ S → currentStreakCalc S t = 0) ∧
    ((t ∈ S ∨ (t - 1) ∈ S) →
      ((∃ d ∈ S, a < d) → currentStreakCalc S t = 0) ∧
      ((∀ d ∈ S, d ≤ a) →
        1 ≤ currentStreakCalc S t ∧
        (∀ d : Int, a - (currentStreakCalc S t : Int) < d → d ≤ a → d ∈ S) ∧
        (a - (currentStreakCalc S t : Int)) ∉ S)) := by
  have hmemd : ∀ x : Int, x ∈ sortDesc S ↔ x ∈ S := fun x => mem_sortDesc
  constructor
  · intro h1 h2
    have hng : ¬ (t ∈ sortDesc S ∨ t - 1 ∈ sortDesc S) := by
      rw [hmemd, hmemd]; tauto
    rw [currentStreakCalc, if_neg hng]
  · intro hguard
    have hguard' : t ∈ sortDesc S ∨ t - 1 ∈ sortDesc S := by
      rw [hmemd, hmemd]; exact hguard
    have hanchor : (if t ∈ sortDesc S then t else t - 1) = a := by
      by_cases hmem : t ∈ S
      · rw [if_pos ((hmemd t).mpr hmem), ha, if_pos hmem]
      · rw [if_neg (fun hc => hmem ((hmemd t).mp hc)), ha, if_neg hmem]
    have hcur : currentStreakCalc S t = matchRun (sortDesc S) a := by
      rw [currentStreakCalc, if_pos hguard', hanchor]
    have haS : a ∈ S := by
      by_cases hmem : t ∈ S
      · rw [ha, if_pos hmem]; exact hmem
      · rw [ha, if_neg hmem]
        rcases hguard with hg | hg
        · exact absurd hg hmem
        · exact hg
    constructor
    · rintro ⟨d, hdS, hda⟩
      cases he : sortDesc S with
      | nil =>
        exfalso
        have hmm := (hmemd d).mpr hdS
        rw [he] at hmm
        simp at hmm
      | cons h tl =>
        have hbound := sortDesc_head_bound he d hdS
        have hha : h ≠ a := by omega
        rw [hcur, he, matchRun, if_neg hha]
    · intro hball
      have hpw := sortDesc_pairwise_gt hnd
      have hble : ∀ x ∈ sortDesc S, x ≤ a := fun x hx => hball x ((hmemd x).mp hx)
      obtain ⟨h1, h2⟩ := matchRun_exact (sortDesc S) a hpw hble
      rw [hcur]
      refine ⟨?_, fun d hd1 hd2 => (hmemd d).mp (h1 d hd1 hd2),
        fun hc => h2 ((hmemd _).mpr hc)⟩
      by_contra hlt
      have h0 : matchRun (sortDesc S) a = 0 := by omega
      have haS' : a ∈ sortDesc S := (hmemd a).mpr haS
      rw [h0] at h2
      simp at h2
      exact h2 haS'

/-- C1 fails as stated on the code: with completed set `{0, 1}` and today
`0`, the anchor `0` is in the set, so the claim demands current streak 1
(the run at the anchor is `{0}` alone); but the loop walks the
descending-sorted list from its head `1`, which mismatches the anchor
immediately, so the code returns 0 — the result does depend on dates after
the anchor. -/
theorem C1_counterexample :
    (0 : Int) ∈ ([0, 1] : List Int) ∧ ([0, 1] : List Int).Nodup ∧
      (0 : Int) - 1 ∉ ([0, 1] : List Int) ∧ currentStreakCalc [0, 1] 0 = 0 := by
  decide

/-- Witness for C1 at the concrete history `[5, 4]` with today `5`. -/
theorem C1_current_streak_witness :
    ((5 : Int) ∉ ([5, 4] : List Int) → (5 : Int) - 1 ∉ ([5, 4] : List Int) →
      currentStreakCalc [5, 4] 5 = 0) ∧
    (((5 : Int) ∈ ([5, 4] : List Int) ∨ (5 : Int) - 1 ∈ ([5, 4] : List Int)) →
      ((∃ d ∈ ([5, 4] : List Int), (5 : Int) < d) → currentStreakCalc [5, 4] 5 = 0) ∧
      ((∀ d ∈ ([5, 4] : List Int), d ≤ (5 : Int)) →
        1 ≤ currentStreakCalc [5, 4] 5 ∧
        (∀ d : Int, (5 : Int) - (currentStreakCalc [5, 4] 5 : Int) < d → d ≤ (5 : Int) →
          d ∈ ([5, 4] : List Int)) ∧
        ((5 : Int) - (currentStreakCalc [5, 4] 5 : Int)) ∉ ([5, 4] : List Int))) :=
  C1_current_streak [5, 4] 5 (by decide) 5 (by decide)

/-! ## The ascending scan of the longest-streak loop -/

/-- An ascending sort of a duplicate-free list is strictly ascending. -/
theorem sortAsc_pairwise_lt {l : List Int} (h : l.Nodup) :
    (sortAsc l).Pairwise (fun a b => a < b) := by
  have hs : (sortAsc l).Pairwise (fun a b => a ≤ b) := List.sorted_insertionSort _ l
  have hn : (sortAsc l).Nodup := ((List.perm_insertionSort _ l).nodup_iff).mpr h
  exact (hs.and hn).imp fun hab => lt_of_le_of_ne hab.1 hab.2

/-- Invariant of the longest-streak scan.  `S` is the full date set, `l` the
unprocessed (strictly ascending) suffix, `p` the last processed date, `temp`
the length of the maximal consecutive run of `S` ending at `p`, and
`longest` folds the lengths of earlier completed runs.  The scan returns
the maximum consecutive-run length of `S`. -/
theorem longestLoop_spec (S : List Int) :
    ∀ (l : List Int) (p : Int) (temp longest : Nat),
    l.Pairwise (fun a b => a < b) →
    (∀ x ∈ l, p < x) →
    (∀ x : Int, p < x → (x ∈ S ↔ x ∈ l)) →
    1 ≤ temp →
    (∀ d : Int, p - (temp : Int) < d → d ≤ p → d ∈ S) →
    (p - (temp : Int)) ∉ S →
    (longest = 0 ∨ ∃ a : Int, ∀ d : Int, a ≤ d → d < a + (longest : Int) → d ∈ S) →
    (∀ (a : Int) (k : Nat), (∀ d : Int, a ≤ d → d < a + (k : Int) → d ∈ S) →
        a + (k : Int) ≤ p + 1 → k ≤ max longest temp) →
    (∃ a : Int, ∀ d : Int, a ≤ d → d < a + (longestLoop l p temp longest : Int) → d ∈ S) ∧
    (∀ (a : Int) (k : Nat), (∀ d : Int, a ≤ d → d < a + (k : Int) → d ∈ S) →
        k ≤ longestLoop l p temp longest) := by
  intro l
  induction l with
  | nil =>
    intro p temp longest _ _ hSl htemp1 htempmem htempout hlrun hmax
    rw [longestLoop]
    constructor
    · rcases Nat.le_total longest temp with hle | hle
      · have hm : max longest temp = temp := Nat.max_eq_right hle
        refine ⟨p - (temp : Int) + 1, fun d hd1 hd2 => ?_⟩
        rw [hm] at hd2
        exact htempmem d (by omega) (by omega)
      · have hm : max longest temp = longest := Nat.max_eq_left hle
        rcases hlrun with h0 | ⟨a, hrun⟩
        · exfalso; omega
        · refine ⟨a, fun d hd1 hd2 => hrun d hd1 ?_⟩
          rw [hm] at hd2; exact hd2
    · intro a k hrun
      by_cases hk0 : k = 0
      · simp [hk0]
      · have hk1 : 1 ≤ k := Nat.one_le_iff_ne_zero.mpr hk0
        have htop : a + (k : Int) - 1 ∈ S := hrun _ (by omega) (by omega)
        have htople : a + (k : Int) - 1 ≤ p := by
          by_contra hgt
          exact absurd ((hSl _ (by omega)).mp htop) (List.not_mem_nil _)
        exact hmax a k hrun (by omega)
  | cons d0 rest ih =>
    intro p temp longest hpw hup hSl htemp1 htempmem htempout hlrun hmax
    have hrest_pw : rest.Pairwise (fun a b => a < b) := hpw.of_cons
    have hd0rest : ∀ x ∈ rest, d0 < x := fun x hx => List.rel_of_pairwise_cons hpw hx
    have hpd0 : p < d0 := hup d0 (List.mem_cons_self _ _)
    have hd0S : d0 ∈ S := (hSl d0 hpd0).mpr (List.mem_cons_self _ _)
    rw [longestLoop]
    by_cases hgap : d0 - p = 1
    · rw [if_pos hgap]
      refine ih d0 (temp + 1) longest hrest_pw hd0rest ?_ (by omega) ?_ ?_ hlrun ?_
      · intro x hx
        rw [hSl x (by omega), List.mem_cons]
        constructor
        · rintro (rfl | h)
          · exact absurd hx (lt_irrefl _)
          · exact h
        · exact fun h => Or.inr h
      · intro d hd1 hd2
        push_cast at hd1
        rcases eq_or_lt_of_le hd2 with rfl | hlt
        · exact hd0S
        · exact htempmem d (by omega) (by omega)
      · have hc : d0 - ((temp + 1 : Nat) : Int) = p - (temp : Int) := by
          push_cast; omega
        rw [hc]; exact htempout
      · intro a k hrun hbound
        by_cases hk0 : k = 0
        · simp [hk0]
        · have hk1 : 1 ≤ k := Nat.one_le_iff_ne_zero.mpr hk0
          by_cases hk : a + (k : Int) ≤ p + 1
          · exact le_trans (hmax a k hrun hk)
              (max_le_max (le_refl _) (Nat.le_succ _))
          · have heq : a + (k : Int) = p + 2 := by omega
            have hagt : p - (temp : Int) < a := by
              by_contra hle'
              push_neg at hle'
              exact htempout (hrun (p - (temp : Int)) hle' (by omega))
            have hkle : k ≤ temp + 1 := by omega
            exact le_trans hkle (le_max_right _ _)
    · rw [if_neg hgap]
      have hd0p2 : p + 2 ≤ d0 := by omega
      have hd0m1 : d0 - 1 ∉ S := by
        intro hc
        have hmm := (hSl (d0 - 1) (by omega)).mp hc
        rcases List.mem_cons.mp hmm with heq | hmem'
        · omega
        · have := hd0rest _ hmem'; omega
      refine ih d0 1 (max longest temp) hrest_pw hd0rest ?_ (le_refl 1) ?_ ?_ ?_ ?_
      · intro x hx
        rw [hSl x (by omega), List.mem_cons]
        constructor
        · rintro (rfl | h)
          · exact absurd hx (lt_irrefl _)
          · exact h
        · exact fun h => Or.inr h
      · intro d hd1 hd2
        push_cast at hd1
        have hdd : d = d0 := by omega
        rw [hdd]; exact hd0S
      · have hc : d0 - ((1 : Nat) : Int) = d0 - 1 := by push_cast; ring
        rw [hc]; exact hd0m1
      · right
        rcases Nat.le_total longest temp with hle | hle
        · have hm : max longest temp = temp := Nat.max_eq_right hle
          refine ⟨p - (temp : Int) + 1, fun d h1 h2 => ?_⟩
          rw [hm] at h2
          exact htempmem d (by omega) (by omega)
        · have hm : max longest temp = longest := Nat.max_eq_left hle
          rcases hlrun with h0 | ⟨a, hrun⟩
          · exfalso; omega
          · refine ⟨a, fun d h1 h2 => hrun d h1 ?_⟩
            rw [hm] at h2; exact h2
      · intro a k hrun hbound
        by_cases hk0 : k = 0
        · simp [hk0]
        · have hk1 : 1 ≤ k := Nat.one_le_iff_ne_zero.mpr hk0
          by_cases hk : a + (k : Int) ≤ p + 1
          · exact le_trans (hmax a k hrun hk) (le_max_left _ _)
          · have htop : a + (k : Int) - 1 ∈ S := hrun _ (by omega) (by omega)
            have htopmem := (hSl _ (by omega)).mp htop
            have htopd0 : a + (k : Int) - 1 = d0 := by
              rcases List.mem_cons.mp htopmem with heq | hmem'
              · exact heq
              · have := hd0rest _ hmem'
                exfalso; omega
            have hk1' : k = 1 := by
              by_contra hne
              have h2le : 2 ≤ k := by omega
              exact hd0m1 (hrun (d0 - 1) (by omega) (by omega))
            rw [hk1']
            exact le_max_right _ _

/-- The longest-streak computation returns exactly the maximum
consecutive-run length of a duplicate-free date list. -/
theorem longestStreakCalc_spec (S : List Int) (hnd : S.Nodup) :
    (∃ a : Int, ∀ d : Int, a ≤ d → d < a + (longestStreakCalc S : Int) → d ∈ S) ∧
    (∀ (a : Int) (k : Nat), (∀ d : Int, a ≤ d → d < a + (k : Int) → d ∈ S) →
      k ≤ longestStreakCalc S) := by
  cases he : sortAsc S with
  | nil =>
    have hperm := List.perm_insertionSort (fun a b => a ≤ b) S
    rw [show List.insertionSort (fun a b => a ≤ b) S = sortAsc S from rfl, he] at hperm
    have hS : S = [] := hperm.symm.eq_nil
    subst hS
    have h0 : longestStreakCalc ([] : List Int) = 0 := rfl
    constructor
    · refine ⟨0, fun d h1 h2 => ?_⟩
      rw [h0] at h2
      exfalso
      push_cast at h2
      omega
    · intro a k hrun
      rw [h0]
      by_cases hk0 : k = 0
      · omega
      · have := hrun a (le_refl a) (by omega)
        exact absurd this (List.not_mem_nil _)
  | cons d rest =>
    have hpw : (sortAsc S).Pairwise (fun a b => a < b) := sortAsc_pairwise_lt hnd
    rw [he] at hpw
    have hrest_pw : rest.Pairwise (fun a b => a < b) := hpw.of_cons
    have hdrest : ∀ x ∈ rest, d < x := fun x hx => List.rel_of_pairwise_cons hpw hx
    have hmem : ∀ x : Int, x ∈ S ↔ x ∈ d :: rest := fun x => by
      rw [← he]; exact mem_sortAsc.symm
    have hdS : d ∈ S := (hmem d).mpr (List.mem_cons_self _ _)
    have hmin : ∀ x ∈ S, d ≤ x := by
      intro x hx
      rcases List.mem_cons.mp ((hmem x).mp hx) with rfl | hx'
      · exact le_refl x
      · exact (hdrest x hx').le
    have hres : longestStreakCalc S = longestLoop rest d 1 0 := by
      rw [longestStreakCalc, he, longestScan]
    rw [hres]
    refine longestLoop_spec S rest d 1 0 hrest_pw hdrest ?_ (le_refl 1) ?_ ?_
      (Or.inl rfl) ?_
    · intro x hx
      rw [hmem x, List.mem_cons]
      constructor
      · rintro (rfl | h)
        · exact absurd hx (lt_irrefl _)
        · exact h
      · exact fun h => Or.inr h
    · intro e h1 h2
      push_cast at h1
      have : e = d := by omega
      rw [this]; exact hdS
    · intro hc
      have := hmin _ hc
      push_cast at this
      omega
    · intro a k hrun hbound
      by_cases hk0 : k = 0
      · simp [hk0]
      · have hk1 : 1 ≤ k := Nat.one_le_iff_ne_zero.mpr hk0
        have haS : a ∈ S := hrun a (le_refl a) (by omega)
        have hda := hmin a haS
        have : k ≤ 1 := by omega
        exact le_trans this (le_max_right _ _)

/-- C2: for a duplicate-free completed-date list, `longest_streak` computed
by the ascending scan equals the maximum length of a consecutive-day run:
a run of that length exists (vacuous for the empty history, where the
result is 0) and no consecutive run is longer. -/
theorem C2_longest_is_max_run (S : List Int) (hnd : S.Nodup) :
    (∃ a : Int, ∀ d : Int, a ≤ d → d < a + (longestStreakCalc S : Int) → d ∈ S) ∧
    (∀ (a : Int) (k : Nat), (∀ d : Int, a ≤ d → d < a + (k : Int) → d ∈ S) →
      k ≤ longestStreakCalc S) :=
  longestStreakCalc_spec S hnd

/-- Witness for C2 at the concrete history `[0, 1, 5]`. -/
theorem C2_longest_is_max_run_witness :
    (∃ a : Int, ∀ d : Int, a ≤ d → d < a + (longestStreakCalc [0, 1, 5] : Int) →
      d ∈ ([0, 1, 5] : List Int)) ∧
    (∀ (a : Int) (k : Nat),
      (∀ d : Int, a ≤ d → d < a + (k : Int) → d ∈ ([0, 1, 5] : List Int)) →
      k ≤ longestStreakCalc [0, 1, 5]) :=
  C2_longest_is_max_run [0, 1, 5] (by decide)

/-- C9: for every duplicate-free completed-date list and reference today,
the computed longest streak bounds the computed current streak. -/
theorem C9_longest_ge_current (S : List Int) (today : Int) (hnd : S.Nodup) :
    currentStreakCalc S today ≤ longestStreakCalc S := by
  rw [currentStreakCalc]
  split
  next hguard =>
    apply (longestStreakCalc_spec S hnd).2
      ((if today ∈ sortDesc S then today else today - 1)
        - (matchRun (sortDesc S) (if today ∈ sortDesc S then today else today - 1) : Int) + 1)
    intro d h1 h2
    have hi : ∃ i : Nat,
        i < matchRun (sortDesc S) (if today ∈ sortDesc S then today else today - 1) ∧
        (if today ∈ sortDesc S then today else today - 1) - (i : Int) = d := by
      refine ⟨((if today ∈ sortDesc S then today else today - 1) - d).toNat, by omega, by omega⟩
    obtain ⟨i, hik, hid⟩ := hi
    have hmem := matchRun_mem (sortDesc S) _ i hik
    rw [hid] at hmem
    exact mem_sortDesc.mp hmem
  next => exact Nat.zero_le _

/-- Witness for C9 at the concrete history `[0, 1, 5]` with today `5`. -/
theorem C9_longest_ge_current_witness :
    currentStreakCalc [0, 1, 5] 5 ≤ longestStreakCalc [0, 1, 5] :=
  C9_longest_ge_current [0, 1, 5] 5 (by decide)

/-! ## Upsert bookkeeping -/

theorem map_id_of {α : Type} (f : α → α) :
    ∀ l : List α, (∀ a ∈ l, f a = a) → l.map f = l := by
  intro l h
  induction l with
  | nil => rfl
  | cons x xs ih =>
    rw [List.map_cons, h x (List.mem_cons_self _ _),
      ih fun a ha => h a (List.mem_cons_of_mem _ ha)]

/-- Upserting leaves exactly one record for the upserted date, provided the
uniqueness invariant held before. -/
theorem countP_upsert (l : List CompletionRecord) (d : Int) (c : Bool)
    (h : l.countP (fun r => decide (r.completion_date = d)) ≤ 1) :
    (upsertCompletion l d c).countP (fun r => decide (r.completion_date = d)) = 1 := by
  rw [upsertCompletion]
  split
  next hany =>
    rw [List.countP_map]
    have hpos : 0 < l.countP (fun r => decide (r.completion_date = d)) := by
      rw [List.countP_pos_iff]
      rw [List.any_eq_true] at hany
      obtain ⟨r, hr, hp⟩ := hany
      exact ⟨r, hr, hp⟩
    have heq : l.countP ((fun r => decide (r.completion_date = d)) ∘
        fun r => if r.completion_date = d then { r with completed := c } else r)
        = l.countP (fun r => decide (r.completion_date = d)) := by
      apply List.countP_congr
      intro r hr
      by_cases hd : r.completion_date = d
      · simp [Function.comp, hd]
      · simp [Function.comp, hd]
    rw [heq]
    omega
  next hany =>
    have h0 : l.countP (fun r => decide (r.completion_date = d)) = 0 := by
      rw [List.countP_eq_zero]
      intro r hr
      intro hp
      exact hany (List.any_eq_true.mpr ⟨r, hr, hp⟩)
    rw [List.countP_append, h0]
    simp

/-- After an upsert to `true`, every record carrying the upserted date is
marked completed. -/
theorem upsert_true_completed (l : List CompletionRecord) (d : Int) :
    ∀ r ∈ upsertCompletion l d true, r.completion_date = d → r.completed = true := by
  intro r hr hrd
  rw [upsertCompletion] at hr
  split at hr
  next hany =>
    rcases List.mem_map.mp hr with ⟨r0, hr0, rfl⟩
    by_cases hd : r0.completion_date = d
    · simp [hd]
    · rw [if_neg hd] at hrd
      exact absurd hrd hd
  next hany =>
    rcases List.mem_append.mp hr with hl | hnew
    · exfalso
      exact hany (List.any_eq_true.mpr ⟨r, hl, by simp [hrd]⟩)
    · have : r = { completion_date := d, completed := true } := by
        simpa using hnew
      rw [this]

/-- An upserted list always contains a record for the upserted date. -/
theorem upsert_has_date (l : List CompletionRecord) (d : Int) (c : Bool) :
    (upsertCompletion l d c).any (fun r => r.completion_date = d) = true := by
  rw [upsertCompletion]
  split
  next hany =>
    rw [List.any_eq_true] at hany ⊢
    obtain ⟨r0, hr0, hp⟩ := hany
    refine ⟨if r0.completion_date = d then { r0 with completed := c } else r0,
      List.mem_map_of_mem _ hr0, ?_⟩
    simp at hp
    simp [hp]
  next =>
    rw [List.any_eq_true]
    exact ⟨_, List.mem_append_right _ (List.mem_cons_self _ _), by simp⟩

/-- Upserting `true` twice for the same date is the same as doing it once:
the second pass rewrites every matching record to the value it already has. -/
theorem upsert_idem (l : List CompletionRecord) (d : Int) :
    upsertCompletion (upsertCompletion l d true) d true
      = upsertCompletion l d true := by
  conv_lhs => rw [upsertCompletion]
  rw [if_pos (upsert_has_date l d true)]
  apply map_id_of
  intro r hr
  by_cases hd : r.completion_date = d
  · rw [if_pos hd]
    have hc := upsert_true_completed l d r hr hd
    cases r with
    | mk date comp =>
      simp only at hc
      rw [show comp = true from hc]
  · rw [if_neg hd]

/-- C6: toggling a habit completed twice in a row for the same date leaves
exactly one completion record for that date (given the uniqueness invariant
held before the first call) and the second call changes nothing — the whole
state, streak values included, is identical after the second call. -/
theorem C6_toggle_idempotent (st : HabitState) (ts : Int) (today : Int)
    (h : st.completions.countP
      (fun r => decide (r.completion_date = dateOnly ts)) ≤ 1) :
    toggleHabitCompletion (toggleHabitCompletion st ts true today) ts true today
      = toggleHabitCompletion st ts true today ∧
    (toggleHabitCompletion st ts true today).completions.countP
      (fun r => decide (r.completion_date = dateOnly ts)) = 1 := by
  constructor
  · show updateHabitStreaks
      { toggleHabitCompletion st ts true today with
        completions := upsertCompletion
          (upsertCompletion st.completions (dateOnly ts) true) (dateOnly ts) true }
      today = toggleHabitCompletion st ts true today
    rw [upsert_idem]
    rfl
  · exact countP_upsert st.completions (dateOnly ts) true h

/-- Witness for C6 on the empty habit state with timestamp 0. -/
theorem C6_toggle_idempotent_witness :
    toggleHabitCompletion (toggleHabitCompletion ⟨[], 0, 0⟩ 0 true 0) 0 true 0
      = toggleHabitCompletion ⟨[], 0, 0⟩ 0 true 0 ∧
    (toggleHabitCompletion ⟨[], 0, 0⟩ 0 true 0).completions.countP
      (fun r => decide (r.completion_date = dateOnly 0)) = 1 :=
  C6_toggle_idempotent ⟨[], 0, 0⟩ 0 0 (by decide)

/-- C10: `toggleHabitCompletion` truncates its timestamp argument to a
calendar date before lookup and upsert, so two calls whose timestamps fall
on the same calendar day address the same completion record: after both
calls exactly one record for that date exists (given the uniqueness
invariant held initially). -/
theorem C10_date_truncation (st : HabitState) (ts1 ts2 : Int) (c1 c2 : Bool)
    (today : Int) (hsame : dateOnly ts1 = dateOnly ts2)
    (h : st.completions.countP
      (fun r => decide (r.completion_date = dateOnly ts1)) ≤ 1) :
    (toggleHabitCompletion (toggleHabitCompletion st ts1 c1 today) ts2 c2
        today).completions.countP
      (fun r => decide (r.completion_date = dateOnly ts1)) = 1 := by
  show (upsertCompletion (upsertCompletion st.completions (dateOnly ts1) c1)
      (dateOnly ts2) c2).countP (fun r => decide (r.completion_date = dateOnly ts1)) = 1
  rw [← hsame]
  exact countP_upsert _ _ _ (le_of_eq (countP_upsert st.completions (dateOnly ts1) c1 h))

/-- Witness for C10: timestamps 1000 and 2000 fall on calendar day 0. -/
theorem C10_date_truncation_witness :
    (toggleHabitCompletion (toggleHabitCompletion ⟨[], 0, 0⟩ 1000 true 0) 2000 false
        0).completions.countP
      (fun r => decide (r.completion_date = dateOnly 1000)) = 1 :=
  C10_date_truncation ⟨[], 0, 0⟩ 1000 2000 true false 0 (by decide) (by decide)

/-! ## The habit aggregation view (`getUserHabits`) -/

/-- A habit row as `getUserHabits` sees it after attaching the recent
completion window. -/
structure HabitView where
  id : Nat
  title : String
  created_at : Int
  current_streak : Int
  recent_completions : List CompletionRecord
deriving Repr, DecidableEq

/-- `habit.recent_completions.find(c => c.completion_date === today)`
followed by the truthiness test `todayCompletion && todayCompletion.completed`
(habitService.js lines 135-138). -/
def isCompletedToday (h : HabitView) (today : Int) : Bool :=
  match h.recent_completions.find? (fun c => decide (c.completion_date = today)) with
  | some c => c.completed
  | none => false

/-- The `completed_today` filter of habitService.js lines 132-141: keep the
habits completed today when the flag is true, the complement otherwise. -/
def filterCompletedToday (habits : List HabitView) (flag : Bool) (today : Int) :
    List HabitView :=
  habits.filter fun h =>
    if flag then isCompletedToday h today else !(isCompletedToday h today)

/-- The specification's formulation of the filter predicate: the bounded
window contains a record dated today with `completed = true`. -/
def specCompletedToday (h : HabitView) (today : Int) : Bool :=
  h.recent_completions.any fun c => decide (c.completion_date = today) && c.completed

/-- On a window with no duplicate dates, testing the first record found for
today agrees with asking whether any record for today is completed. -/
theorem find_today_eq_any (l : List CompletionRecord) (today : Int)
    (hnd : (l.map (fun c => c.completion_date)).Nodup) :
    (match l.find? (fun c => decide (c.completion_date = today)) with
      | some c => c.completed
      | none => false)
      = l.any (fun c => decide (c.completion_date = today) && c.completed) := by
  induction l with
  | nil => rfl
  | cons c0 rest ih =>
    rw [List.map_cons, List.nodup_cons] at hnd
    by_cases hd : c0.completion_date = today
    · rw [List.find?_cons_of_pos _ (by simp [hd]), List.any_cons]
      cases hc0 : c0.completed with
      | false =>
        have hrest : rest.any
            (fun c => decide (c.completion_date = today) && c.completed) = false := by
          rw [List.any_eq_false]
          intro c hc hcp
          simp only [Bool.and_eq_true, decide_eq_true_eq] at hcp
          exact hnd.1 (hd ▸ hcp.1 ▸ List.mem_map_of_mem _ hc)
        simp [hrest, hc0]
      | true => simp [hd, hc0]
    · rw [List.find?_cons_of_neg _ (by simp [hd]), List.any_cons]
      rw [ih hnd.2]
      simp [hd]

/-- C7: with the uniqueness invariant on each habit's window, the
completed-today filter keeps exactly the habits whose bounded window
contains a record dated today with `completed = true` (for flag `true`) and
exactly the complement (for flag `false`). -/
theorem C7_completed_today_filter (habits : List HabitView) (flag : Bool)
    (today : Int)
    (hnd : ∀ h ∈ habits,
      (h.recent_completions.map (fun c => c.completion_date)).Nodup) :
    filterCompletedToday habits flag today
      = habits.filter (fun h => specCompletedToday h today == flag) := by
  apply List.filter_congr
  intro h hmem
  have heq : isCompletedToday h today = specCompletedToday h today :=
    find_today_eq_any h.recent_completions today (hnd h hmem)
  cases flag
  · simp [heq]
  · simp [heq]

/-- Witness for C7 on two concrete habits, one completed today and one
marked not completed. -/
theorem C7_completed_today_filter_witness :
    filterCompletedToday
        [⟨1, "a", 0, 0, [⟨0, true⟩]⟩, ⟨2, "b", 0, 0, [⟨0, false⟩]⟩] true 0
      = List.filter (fun h => specCompletedToday h 0 == true)
          [⟨1, "a", 0, 0, [⟨0, true⟩]⟩, ⟨2, "b", 0, 0, [⟨0, false⟩]⟩] :=
  C7_completed_today_filter
    [⟨1, "a", 0, 0, [⟨0, true⟩]⟩, ⟨2, "b", 0, 0, [⟨0, false⟩]⟩] true 0 (by decide)

/-- The sort dispatch of habitService.js lines 72-85: `title` and
`current_streak` are recognised; every other key falls through to the
`created_at` ordering (`case 'created_at': default:` share one branch). -/
def applySort (habits : List HabitView) (sortBy : String) (ascending : Bool) :
    List HabitView :=
  if sortBy = "title" then
    if ascending then List.insertionSort (fun a b => a.title ≤ b.title) habits
    else List.insertionSort (fun a b => b.title ≤ a.title) habits
  else if sortBy = "current_streak" then
    if ascending then
      List.insertionSort (fun a b => a.current_streak ≤ b.current_streak) habits
    else List.insertionSort (fun a b => b.current_streak ≤ a.current_streak) habits
  else
    if ascending then List.insertionSort (fun a b => a.created_at ≤ b.created_at) habits
    else List.insertionSort (fun a b => b.created_at ≤ a.created_at) habits

/-- The recent-completions window of habitService.js lines 97-129: the store
returns each habit's completions with `completion_date` between
`today - days + 1` and `today` inclusive. -/
def attachWindow (habits : List HabitView) (days : Int) (today : Int) :
    List HabitView :=
  habits.map fun h =>
    { h with recent_completions := (h.recent_completions.filter
        fun c => decide (today - days + 1 ≤ c.completion_date ∧
          c.completion_date ≤ today)) }

/-- `getUserHabits` (habitService.js lines 49-144) over pre-fetched rows:
sort per the requested key and order (`ascending = sortOrder === 'asc'`),
attach the bounded recent window, then apply the completed-today filter when
requested.  `Except.error` models the store failures thrown by the service;
the option handling itself throws nothing. -/
def getUserHabitsModel (habits : List HabitView) (days : Int)
    (sortBy sortOrder : String) (completedToday : Option Bool) (today : Int) :
    Except String (List HabitView) :=
  match completedToday with
  | none =>
      Except.ok (attachWindow (applySort habits sortBy (sortOrder == "asc")) days today)
  | some flag =>
      Except.ok (filterCompletedToday
        (attachWindow (applySort habits sortBy (sortOrder == "asc")) days today)
        flag today)

/-- A concrete habit row used to exercise `getUserHabits`. -/
def sampleHabit : HabitView :=
  { id := 1, title := "run", created_at := 100, current_streak := 3,
    recent_completions := [{ completion_date := 0, completed := true }] }

/-- C8 fails as stated on the code: a call with unknown sort key `bogus` and
negative window size `-5` is not rejected as an error — it completes
successfully; the unknown key silently falls back to the `created_at`
ordering and the negative window yields an empty recent-completions list. -/
theorem C8_counterexample :
    getUserHabitsModel [sampleHabit] (-5) "bogus" "desc" none 0
      = Except.ok [{ id := 1, title := "run", created_at := 100,
                     current_streak := 3, recent_completions := [] }] := by rfl

/-- C8 (amended): `getUserHabits` performs no `InvalidInput` rejection: a
call whose sort key is outside the three recognised keys behaves exactly as
a `created_at` call — with any window size, negative included — and returns
successfully. -/
theorem C8_no_rejection (habits : List HabitView) (days : Int)
    (sortBy sortOrder : String) (ct : Option Bool) (today : Int)
    (h1 : sortBy ≠ "title") (h2 : sortBy ≠ "current_streak") :
    getUserHabitsModel habits days sortBy sortOrder ct today
      = getUserHabitsModel habits days ("created_at") sortOrder ct today ∧
    ∃ v, getUserHabitsModel habits days sortBy sortOrder ct today
      = Except.ok v := by
  have hsort : applySort habits sortBy (sortOrder == "asc")
      = applySort habits ("created_at") (sortOrder == "asc") := by
    simp only [applySort]
    rw [if_neg h1, if_neg h2,
      if_neg (show ¬ (("created_at" : String) = "title") by decide),
      if_neg (show ¬ (("created_at" : String) = "current_streak") by decide)]
  constructor
  · cases ct with
    | none => simp only [getUserHabitsModel, hsort]
    | some flag => simp only [getUserHabitsModel, hsort]
  · cases ct with
    | none => exact ⟨_, rfl⟩
    | some flag => exact ⟨_, rfl⟩

/-- Witness for C8 with the unknown sort key `bogus`. -/
theorem C8_no_rejection_witness :
    getUserHabitsModel [sampleHabit] 14 "bogus" "asc" none 0
      = getUserHabitsModel [sampleHabit] 14 ("created_at") "asc" none 0 ∧
    ∃ v, getUserHabitsModel [sampleHabit] 14 "bogus" "asc" none 0
      = Except.ok v :=
  C8_no_rejection [sampleHabit] 14 "bogus" "asc" none 0 (by decide) (by decide)

end HabitTracker
